import Mathlib

/-!
Verification of the hyperelasticity demo (a dolfinx notebook solving a
finite-strain neo-Hookean beam problem with Newton iteration and load
stepping).

The development embeds, faithfully to the notebook's code cells:

* the kinematic quantities and the compressible neo-Hookean strain energy
  density (`CGreen`, `Ic`, `Jdet`, `psi`) over real 3×3 matrices;
* the boundary-facet marking (markers 1 and 2) and the traction
  integration domain of the variational form;
* the residual and tangent assembly of the `NonlinearPDEProblem` class,
  with the dolfinx boundary-condition primitives (`set_bc`,
  `apply_lifting`, constrained-row handling of `assemble_matrix`)
  modelled from the specification, since their implementation lives in
  the external dolfinx library;
* the Newton solver options and, modelled from the specification, the
  incremental convergence test and iteration loop;
* the nine-step load-stepping loop with its `assert(converged)` abort
  semantics.
-/

namespace Hyperelasticity

open Matrix

/-! ### Global assembly with Dirichlet boundary conditions

Vectors and matrices are indexed by global degrees of freedom; the raw
element-loop contributions of the external form compiler are abstracted
as an arbitrary vector/matrix argument. -/

/-- Dense vector of length the number of degrees of freedom. -/
abbrev Vec (n : ℕ) := Fin n → ℚ

/-- Sparse DOF×DOF matrix, modelled densely. -/
abbrev MatQ (n : ℕ) := Matrix (Fin n) (Fin n) ℚ

/-- Boundary-condition set: `some g` when the DOF is prescribed value `g`,
`none` when it is free. -/
abbrev BCSet (n : ℕ) := Fin n → Option ℚ

/-- Modelled from the spec: the prescribed-value correction `g − x` used by
boundary lifting, zero on unconstrained DOFs (dolfinx internals are not part
of this repository). -/
def bcCorrection {n : ℕ} (bc : BCSet n) (x : Vec n) : Vec n := fun k =>
  match bc k with
  | some g => g - x k
  | none => 0

/-- Modelled from the spec: the dolfinx `apply_lifting(b, [a], [bcs], [x], scale)`
primitive adds `scale·A·bc_correction` to the assembled vector, so with
`scale = -1` it applies `b ← b − A·bc_correction`. -/
def apply_lifting {n : ℕ} (b : Vec n) (A : MatQ n) (bc : BCSet n) (x : Vec n)
    (scale : ℚ) : Vec n :=
  fun k => b k + scale * ∑ j, A k j * bcCorrection bc x j

/-- Modelled from the spec: the dolfinx `set_bc(b, bcs, x, scale)` primitive
overwrites each prescribed row `k` with `scale·(g_k − x_k)` and leaves free
rows untouched. -/
def set_bc {n : ℕ} (b : Vec n) (bc : BCSet n) (x : Vec n) (scale : ℚ) : Vec n :=
  fun k =>
    match bc k with
    | some g => scale * (g - x k)
    | none => b k

/-- Residual assembly, from `NonlinearPDEProblem.F` of the notebook: reset the
incoming residual buffer to zero (`b_local.set(0.0)`), accumulate the raw
element contributions (`assemble_vector(b, self.L)`), apply boundary lifting
with scale `-1.0`, then overwrite the constrained rows with scale `-1.0`.
The argument `raw` abstracts the element-loop contributions. -/
def residualAssemble {n : ℕ} (_bIn : Vec n) (raw : Vec n) (A : MatQ n)
    (bc : BCSet n) (x : Vec n) : Vec n :=
  let b : Vec n := fun _ => 0
  let b : Vec n := fun k => b k + raw k
  let b := apply_lifting b A bc x (-1)
  set_bc b bc x (-1)

/-- Modelled from the spec: the dolfinx `assemble_matrix(A, a, bcs)` primitive
inserts the raw element contributions except on prescribed rows, which are
zeroed with a unit diagonal entry. -/
def assemble_matrix {n : ℕ} (Araw : MatQ n) (bc : BCSet n) : MatQ n :=
  Matrix.of fun k l => if (bc k).isSome then (if l = k then 1 else 0) else Araw k l

/-- Tangent assembly, from `NonlinearPDEProblem.J` of the notebook:
`A.zeroEntries()` then `assemble_matrix(A, self.a, self.bcs)` adds into the
zeroed matrix. -/
def tangentAssemble {n : ℕ} (_AIn : MatQ n) (Araw : MatQ n) (bc : BCSet n) : MatQ n :=
  let A : MatQ n := 0
  let A := A + assemble_matrix Araw bc
  A

/-- Beam length: `L = 20.0`. -/
def L : ℚ := 20

/-- Modelled from NumPy (external to this repository): `np.isclose(a, b)` with
the default tolerances holds when `|a − b| ≤ atol + rtol·|b|`, `atol = 1e-8`,
`rtol = 1e-5`. -/
def isclose (a b : ℚ) : Bool := decide (|a - b| ≤ 1e-8 + 1e-5 * |b|)

/-- Predicate `left` of the notebook: `np.isclose(x[0], 0)`. -/
def left (x : ℚ) : Bool := isclose x 0

/-- Predicate `right` of the notebook: `np.isclose(x[0], L)`. -/
def right (x : ℚ) : Bool := isclose x L

/-- Mesh boundary facet, represented by the first reference coordinate `x[0]`
of each of its vertices. -/
structure Facet where
  verts : List ℚ

/-- Modelled from the spec: `locate_entities_boundary(mesh, dim-1, left)`
selects the boundary facets all of whose vertices satisfy the predicate. -/
def onLeft (f : Facet) : Bool := f.verts.all left

/-- Modelled from the spec: `locate_entities_boundary(mesh, dim-1, right)`
selects the boundary facets all of whose vertices satisfy the predicate. -/
def onRight (f : Facet) : Bool := f.verts.all right

/-- Marker assignment of `facet_tag`: left facets are marked with value 1,
right facets with value 2, other boundary facets are untagged. -/
def facetMarker (f : Facet) : Option ℕ :=
  if onLeft f then some 1 else if onRight f then some 2 else none

/-- Integration domain of the traction term `ufl.inner(v, T)*ds(2)` of the
variational form: the facets whose marker value is 2. -/
def tractionFacets (fs : List Facet) : List Facet :=
  fs.filter fun f => decide (facetMarker f = some 2)

/-- Initial traction increment of the load loop: `tval0 = -1.5`. -/
def tval0 : ℚ := -1.5

/-- Load-step indices `range(1, 10)` of the loop `for n in range(1, 10)`. -/
def loadIndices : List ℕ := List.range' 1 9

/-- Traction value applied at load step `m`: `T.value[2] = n * tval0`. -/
def tractionOf (m : ℕ) : ℚ := (m : ℚ) * tval0

/-- Boundary function `u_bc` of the notebook, set to zero (`loc.set(0)`) once
before the load loop. -/
def u_bc (n : ℕ) : Vec n := fun _ => 0

/-- Dirichlet set `bcs = [DirichletBC(u_bc, left_dofs)]`: the DOFs of the fixed
face are prescribed the value of `u_bc`; all others are free. -/
def bcs {n : ℕ} (leftDofs : Fin n → Bool) : BCSet n :=
  fun k => if leftDofs k then some (u_bc n k) else none

/-- Mutable state of the load loop: the traction constant `T`, the
boundary-condition set and the displacement `u`. -/
structure LoopState (n : ℕ) where
  T : ℚ × ℚ × ℚ
  bcSet : BCSet n
  u : Vec n

/-- Load-stepping loop of the notebook: for each step index `n`, set
`T.value[2] = n * tval0`, run the Newton solve from the previous step's
displacement, and `assert(converged)` — a failed step aborts the whole run.
The solver is abstracted as `solve` (traction value, boundary conditions,
initial displacement), returning `none` when it does not converge. Returns the
list of traction values attempted and the final state, `none` on abort. -/
def loadLoop {n : ℕ} (solve : ℚ → BCSet n → Vec n → Option (Vec n)) :
    List ℕ → LoopState n → List ℚ × Option (LoopState n)
  | [], st => ([], some st)
  | k :: ks, st =>
    let t := tractionOf k
    let st1 : LoopState n := ⟨(st.T.1, st.T.2.1, t), st.bcSet, st.u⟩
    match solve t st1.bcSet st1.u with
    | none => ([t], none)
    | some u1 =>
      let r := loadLoop solve ks ⟨st1.T, st1.bcSet, u1⟩
      (t :: r.1, r.2)

/-- Composition of the per-step solves, threading each step's converged
displacement into the next step. -/
def solveChain {n : ℕ} (solve : ℚ → BCSet n → Vec n → Option (Vec n))
    (ks : List ℕ) (bc : BCSet n) (u0 : Vec n) : Option (Vec n) :=
  ks.foldlM (fun u (k : ℕ) => solve (tractionOf k) bc u) u0

noncomputable section

/-- Real 3×3 matrices; the spatial dimension is `d = len(u) = 3`. -/
abbrev Mat3 := Matrix (Fin 3) (Fin 3) ℝ

/-- Right Cauchy–Green tensor `C = F.T * F`. -/
def CGreen (F : Mat3) : Mat3 := Fᵀ * F

/-- First invariant `Ic = ufl.tr(C)`. -/
def Ic (F : Mat3) : ℝ := (CGreen F).trace

/-- Volume ratio `J = ufl.det(F)`. -/
def Jdet (F : Mat3) : ℝ := F.det

/-- Stored strain energy density of the notebook,
`psi = (mu / 2) * (Ic - 3) - mu * ufl.ln(J) + (lmbda / 2) * (ufl.ln(J))**2`,
with the material parameters `mu`, `lmbda` kept general and `ufl.ln` the real
logarithm. -/
def psi (μ lam : ℝ) (F : Mat3) : ℝ :=
  μ / 2 * (Ic F - 3) - μ * Real.log (Jdet F) + lam / 2 * Real.log (Jdet F) ^ 2

/-- Evaluation semantics of `ufl.ln`: the real logarithm is defined only on
positive input; applying it to a non-positive argument is a domain failure
(the `GeometricDegeneracy` condition, element inversion), returned as `none`. -/
def lnE (x : ℝ) : Option ℝ := if 0 < x then some (Real.log x) else none

/-- Constitutive evaluation of `psi` with each occurrence of `ufl.ln(J)`
evaluated at `J = det F` under the domain guard `J > 0`. -/
def psiE (μ lam : ℝ) (F : Mat3) : Option ℝ :=
  (lnE (Jdet F)).bind fun l1 =>
    (lnE (Jdet F)).bind fun l2 =>
      some (μ / 2 * (Ic F - 3) - μ * l1 + lam / 2 * l2 ^ 2)

/-- First Piola–Kirchhoff stress in the spec's closed form,
`P = mu (F − F^{-T}) + lambda ln(J) F^{-T}`; the notebook produces `P` by the
symbolic derivative `ufl.diff(psi, F)`, and the theorems below identify the two. -/
def P_spec (μ lam : ℝ) (F : Mat3) : Mat3 :=
  μ • (F - F⁻¹ᵀ) + (lam * Real.log (Jdet F)) • F⁻¹ᵀ

/-- Newton solver options set on the `NewtonSolver` in the notebook:
`solver.atol = 1e-8`, `solver.rtol = 1e-6`,
`solver.convergence_criterion = "incremental"`. -/
structure NewtonOptions where
  atol : ℝ
  rtol : ℝ
  convergence_criterion : String

/-- Option values configured by the notebook (both revisions). -/
def solverOptions : NewtonOptions := ⟨1e-8, 1e-6, "incremental"⟩

/-- Modelled from the spec: the Euclidean norm used by the convergence test. -/
noncomputable def euclNorm {n : ℕ} (v : Fin n → ℝ) : ℝ := Real.sqrt (∑ i, v i ^ 2)

/-- Modelled from the spec: the incremental convergence criterion — stop when
`‖δ‖ < rtol·‖u‖ + atol`. -/
def converged {n : ℕ} (o : NewtonOptions) (δ u : Fin n → ℝ) : Prop :=
  euclNorm δ < o.rtol * euclNorm u + o.atol

/-- Modelled from the spec: the sequence of Newton iterates `u ← u + δ`, where
`δ = step u` abstracts assembling `(R, J)` at `u` and solving `J·δ = −R`. -/
def newtonIterates {n : ℕ} (step : (Fin n → ℝ) → Fin n → ℝ) (u0 : Fin n → ℝ) :
    ℕ → Fin n → ℝ
  | 0 => u0
  | k + 1 => newtonIterates step u0 k + step (newtonIterates step u0 k)

/-- Whether the convergence criterion holds at iteration `m`: the correction
computed from the `m`-th iterate is small against the updated iterate. -/
def stepConverged {n : ℕ} (o : NewtonOptions) (step : (Fin n → ℝ) → Fin n → ℝ)
    (u0 : Fin n → ℝ) (m : ℕ) : Prop :=
  converged o (step (newtonIterates step u0 m)) (newtonIterates step u0 (m + 1))

open Classical in
/-- Modelled from the spec: the Newton iteration loop — each entry computes the
correction, updates the iterate, and stops reporting convergence as soon as the
criterion holds, giving up without the convergence flag after `maxIt` further
iterations. Returns (iteration count, final iterate, converged flag). -/
noncomputable def newtonSolve {n : ℕ} (o : NewtonOptions)
    (step : (Fin n → ℝ) → Fin n → ℝ) : ℕ → (Fin n → ℝ) → ℕ × (Fin n → ℝ) × Bool
  | 0, u => (0, u, false)
  | maxIt + 1, u =>
    let δ := step u
    let u1 := u + δ
    if converged o δ u1 then (1, u1, true)
    else
      let r := newtonSolve o step maxIt u1
      (r.1 + 1, r.2)

end

lemma residualAssemble_constrained {n : ℕ} (bIn raw : Vec n) (A : MatQ n)
    (bc : BCSet n) (x : Vec n) (k : Fin n) (g : ℚ) (h : bc k = some g) :
    residualAssemble bIn raw A bc x k = x k - g := by
  simp only [residualAssemble, set_bc, h]
  ring

lemma residualAssemble_free {n : ℕ} (bIn raw : Vec n) (A : MatQ n)
    (bc : BCSet n) (x : Vec n) (k : Fin n) (h : bc k = none) :
    residualAssemble bIn raw A bc x k = raw k - ∑ j, A k j * bcCorrection bc x j := by
  simp only [residualAssemble, set_bc, apply_lifting, h]
  ring

lemma tangentAssemble_row {n : ℕ} (AIn Araw : MatQ n) (bc : BCSet n)
    (k : Fin n) (h : (bc k).isSome) (l : Fin n) :
    tangentAssemble AIn Araw bc k l = if l = k then 1 else 0 := by
  simp [tangentAssemble, assemble_matrix, h]

/-- C2: after residual assembly with boundary lifting, every prescribed DOF `k`
with value `g` satisfies `b[k] = u[k] − g` for every trial displacement and
regardless of the raw contributions accumulated from the element loop; and the
lifting correction `b ← b − A·bc_correction` is applied before the constrained
rows are overwritten, as witnessed by every unconstrained row. -/
theorem residual_bc_rows {n : ℕ} (bIn raw : Vec n) (A : MatQ n) (bc : BCSet n)
    (x : Vec n) (k : Fin n) :
    (∀ g, bc k = some g → residualAssemble bIn raw A bc x k = x k - g) ∧
    (bc k = none →
      residualAssemble bIn raw A bc x k = raw k - ∑ j, A k j * bcCorrection bc x j) :=
  ⟨fun g h => residualAssemble_constrained bIn raw A bc x k g h,
   fun h => residualAssemble_free bIn raw A bc x k h⟩

/-- Witness for C2 on a concrete two-DOF system: DOF 0 prescribed value 3 at
trial value 5 yields residual entry 2; the free DOF 1 keeps its raw value minus
the lifting term. -/
theorem residual_bc_rows_witness :
    residualAssemble (fun _ : Fin 2 => 7) (fun k => if k = 0 then 11 else 13)
      (Matrix.of fun _ _ => 2) (fun k => if k = 0 then some 3 else none)
      (fun k => if k = 0 then 5 else 4) 0 = 2 ∧
    residualAssemble (fun _ : Fin 2 => 7) (fun k => if k = 0 then 11 else 13)
      (Matrix.of fun _ _ => 2) (fun k => if k = 0 then some 3 else none)
      (fun k => if k = 0 then 5 else 4) 1 = 17 := by
  constructor
  · have h := (residual_bc_rows (fun _ : Fin 2 => 7) (fun k => if k = 0 then 11 else 13)
      (Matrix.of fun _ _ => 2) (fun k => if k = 0 then some 3 else none)
      (fun k => if k = 0 then 5 else 4) 0).1 3 rfl
    rw [h]; norm_num
  · have h := (residual_bc_rows (fun _ : Fin 2 => 7) (fun k => if k = 0 then 11 else 13)
      (Matrix.of fun _ _ => 2) (fun k => if k = 0 then some 3 else none)
      (fun k => if k = 0 then 5 else 4) 1).2 rfl
    rw [h]; norm_num [Fin.sum_univ_two, bcCorrection, Matrix.of_apply]

/-- C7: after tangent assembly with boundary conditions, each prescribed row `k`
is zero except for a unit diagonal entry; hence any correction `δ` solved from
this matrix satisfies `δ k = rhs k`, and with right-hand side `−R` (the Newton
update) a constrained DOF whose constraint is already satisfied receives a zero
correction. -/
theorem tangent_bc_rows {n : ℕ} (AIn Araw : MatQ n) (bc : BCSet n) (k : Fin n)
    (h : (bc k).isSome) :
    (∀ l, tangentAssemble AIn Araw bc k l = if l = k then 1 else 0) ∧
    (∀ δ rhs : Vec n, (tangentAssemble AIn Araw bc).mulVec δ = rhs → δ k = rhs k) ∧
    (∀ (δ bIn raw x : Vec n) (Alift : MatQ n) (g : ℚ), bc k = some g → x k = g →
      (tangentAssemble AIn Araw bc).mulVec δ =
        (fun i => -(residualAssemble bIn raw Alift bc x i)) → δ k = 0) := by
  have hrow := tangentAssemble_row AIn Araw bc k h
  have hsolve : ∀ δ rhs : Vec n, (tangentAssemble AIn Araw bc).mulVec δ = rhs →
      δ k = rhs k := by
    intro δ rhs hs
    have hk := congrFun hs k
    rw [Matrix.mulVec, Matrix.dotProduct] at hk
    calc δ k = ∑ l, (if l = k then (1 : ℚ) else 0) * δ l := by
          simp [ite_mul, Finset.sum_ite_eq']
      _ = rhs k := by
          rw [← hk]
          exact Finset.sum_congr rfl fun l _ => by rw [hrow l]
  refine ⟨hrow, hsolve, ?_⟩
  intro δ bIn raw x Alift g hg hx hs
  have := hsolve δ _ hs
  rw [this, residualAssemble_constrained bIn raw Alift bc x k g hg, hx]
  ring

/-- Witness for C7 on a concrete two-DOF system with DOF 0 constrained:
the constrained row is `(1, 0)`. -/
theorem tangent_bc_rows_witness :
    tangentAssemble (Matrix.of fun _ _ : Fin 2 => 9) (Matrix.of fun _ _ => 4)
      (fun k => if k = 0 then some 3 else none) 0 0 = 1 ∧
    tangentAssemble (Matrix.of fun _ _ : Fin 2 => 9) (Matrix.of fun _ _ => 4)
      (fun k => if k = 0 then some 3 else none) 0 1 = 0 := by
  have h := (tangent_bc_rows (Matrix.of fun _ _ : Fin 2 => 9) (Matrix.of fun _ _ => 4)
    (fun k => if k = 0 then some 3 else none) 0 rfl).1
  exact ⟨by rw [h 0]; norm_num, by rw [h 1]; norm_num⟩

/-- C9: assembling the residual (or the tangent) twice with the same trial
displacement, boundary-condition set and raw element contributions gives
identical results, whatever the previous contents of the residual buffer or
tangent matrix: both are reset to zero at the start of every assembly call, so
no state from a previous assembly leaks into the result. -/
theorem assembly_deterministic {n : ℕ} (b1 b2 raw : Vec n) (A1 A2 Araw : MatQ n)
    (bc : BCSet n) (x : Vec n) :
    residualAssemble b1 raw A1 bc x = residualAssemble b2 raw A1 bc x ∧
    tangentAssemble A1 Araw bc = tangentAssemble A2 Araw bc :=
  ⟨rfl, rfl⟩

/-! ### Boundary facet marking and the traction integration domain -/

lemma left_right_exclusive (x : ℚ) : ¬(left x = true ∧ right x = true) := by
  rintro ⟨h1, h2⟩
  rw [left, isclose, decide_eq_true_eq] at h1
  rw [right, isclose, decide_eq_true_eq, L] at h2
  obtain ⟨a1, a2⟩ := abs_le.mp h1
  obtain ⟨b1, b2⟩ := abs_le.mp h2
  norm_num at a1 a2 b1 b2
  linarith

/-- C8: the traction term of the residual is integrated exactly over the facets
carrying marker value 2; a boundary facet is marked 2 precisely when its first
coordinate is approximately `L` (the free end), and marked 1 precisely when its
first coordinate is approximately 0 (the fixed end). -/
theorem traction_marker (f : Facet) (hne : f.verts ≠ []) :
    (facetMarker f = some 2 ↔ onRight f = true) ∧
    (facetMarker f = some 1 ↔ onLeft f = true) ∧
    ∀ fs : List Facet, f ∈ tractionFacets fs ↔ f ∈ fs ∧ onRight f = true := by
  have hex : ¬(onLeft f = true ∧ onRight f = true) := by
    rintro ⟨hl, hr⟩
    obtain ⟨x, hx⟩ := List.exists_mem_of_ne_nil f.verts hne
    rw [onLeft, List.all_eq_true] at hl
    rw [onRight, List.all_eq_true] at hr
    exact left_right_exclusive x ⟨hl x hx, hr x hx⟩
  have h2 : facetMarker f = some 2 ↔ onRight f = true := by
    by_cases hl : onLeft f = true
    · have hr : ¬onRight f = true := fun hr => hex ⟨hl, hr⟩
      simp [facetMarker, hl, hr]
    · by_cases hr : onRight f = true <;> simp [facetMarker, hl, hr]
  have h1 : facetMarker f = some 1 ↔ onLeft f = true := by
    by_cases hl : onLeft f = true
    · simp [facetMarker, hl]
    · by_cases hr : onRight f = true <;> simp [facetMarker, hl, hr]
  refine ⟨h2, h1, fun fs => ?_⟩
  rw [tractionFacets, List.mem_filter, decide_eq_true_eq, h2]

/-- Witness for C8: a single-vertex facet at the free end `x[0] = L = 20` is
marked 2; one at the fixed end `x[0] = 0` is marked 1. -/
theorem traction_marker_witness :
    facetMarker ⟨[20]⟩ = some 2 ∧ facetMarker ⟨[0]⟩ = some 1 := by
  constructor
  · refine (traction_marker ⟨[20]⟩ (by simp)).1.mpr ?_
    rw [onRight, List.all_eq_true]
    intro x hx
    simp only [List.mem_singleton] at hx
    subst hx
    rw [right, isclose, decide_eq_true_eq, L]
    norm_num
  · refine (traction_marker ⟨[0]⟩ (by simp)).2.1.mpr ?_
    rw [onLeft, List.all_eq_true]
    intro x hx
    simp only [List.mem_singleton] at hx
    subst hx
    rw [left, isclose, decide_eq_true_eq]
    norm_num


/-! ### Load stepping -/

lemma solveChain_nil {n : ℕ} (solve : ℚ → BCSet n → Vec n → Option (Vec n))
    (bc : BCSet n) (u0 : Vec n) : solveChain solve [] bc u0 = some u0 := rfl

lemma solveChain_cons {n : ℕ} (solve : ℚ → BCSet n → Vec n → Option (Vec n))
    (k : ℕ) (ks : List ℕ) (bc : BCSet n) (u0 : Vec n) :
    solveChain solve (k :: ks) bc u0 =
      (solve (tractionOf k) bc u0).bind (fun u1 => solveChain solve ks bc u1) := by
  rw [solveChain, List.foldlM_cons]
  cases solve (tractionOf k) bc u0 with
  | none => rfl
  | some u1 => rfl

lemma loadLoop_u {n : ℕ} (solve : ℚ → BCSet n → Vec n → Option (Vec n)) :
    ∀ ks (st : LoopState n),
      ((loadLoop solve ks st).2).map LoopState.u = solveChain solve ks st.bcSet st.u := by
  intro ks
  induction ks with
  | nil => intro st; simp [loadLoop, solveChain_nil]
  | cons k ks ih =>
    intro st
    rw [loadLoop, solveChain_cons]
    cases h : solve (tractionOf k) st.bcSet st.u with
    | none => simp [h]
    | some u1 => simpa [h] using ih ⟨(st.T.1, st.T.2.1, tractionOf k), st.bcSet, u1⟩

lemma loadLoop_bc {n : ℕ} (solve : ℚ → BCSet n → Vec n → Option (Vec n)) :
    ∀ ks (st stf : LoopState n),
      (loadLoop solve ks st).2 = some stf → stf.bcSet = st.bcSet := by
  intro ks
  induction ks with
  | nil => intro st stf h; simp only [loadLoop, Option.some_inj] at h; rw [← h]
  | cons k ks ih =>
    intro st stf h
    rw [loadLoop] at h
    cases hs : solve (tractionOf k) st.bcSet st.u with
    | none => rw [hs] at h; simp at h
    | some u1 =>
      rw [hs] at h
      exact ih ⟨(st.T.1, st.T.2.1, tractionOf k), st.bcSet, u1⟩ stf h

lemma loadLoop_steps {n : ℕ} (solve : ℚ → BCSet n → Vec n → Option (Vec n)) :
    ∀ ks (st : LoopState n) uf,
      solveChain solve ks st.bcSet st.u = some uf →
      (loadLoop solve ks st).1 = ks.map tractionOf := by
  intro ks
  induction ks with
  | nil => intro st uf _; simp [loadLoop]
  | cons k ks ih =>
    intro st uf h
    rw [solveChain_cons] at h
    rw [loadLoop, List.map_cons]
    cases hs : solve (tractionOf k) st.bcSet st.u with
    | none => rw [hs] at h; simp at h
    | some u1 =>
      rw [hs] at h
      simp only [Option.some_bind] at h
      have := ih ⟨(st.T.1, st.T.2.1, tractionOf k), st.bcSet, u1⟩ uf h
      simpa using this

lemma loadLoop_abort {n : ℕ} (solve : ℚ → BCSet n → Vec n → Option (Vec n)) :
    ∀ pre (k : ℕ) post (st : LoopState n) u',
      solveChain solve pre st.bcSet st.u = some u' →
      solve (tractionOf k) st.bcSet u' = none →
      loadLoop solve (pre ++ k :: post) st =
        (pre.map tractionOf ++ [tractionOf k], none) := by
  intro pre
  induction pre with
  | nil =>
    intro k post st u' hch hfail
    rw [solveChain_nil, Option.some_inj] at hch
    subst hch
    simp [loadLoop, hfail]
  | cons m pre ih =>
    intro k post st u' hch hfail
    rw [solveChain_cons] at hch
    cases hs : solve (tractionOf m) st.bcSet st.u with
    | none => rw [hs] at hch; simp at hch
    | some u1 =>
      rw [hs] at hch
      simp only [Option.some_bind] at hch
      rw [List.cons_append, loadLoop]
      simp only [hs]
      rw [ih k post ⟨(st.T.1, st.T.2.1, tractionOf m), st.bcSet, u1⟩ u' hch hfail]
      simp

/-- C5: the load stepper performs exactly 9 load steps with the transverse
traction component `n * (-1.5)` for `n = 1..9`; each solve starts from the
previous step's converged displacement (the final displacement is the threaded
composition of the per-step solves), and a step that fails to converge aborts
the whole run at that step: the attempted load values are exactly those up to
and including the failing one, and no later load value is reached. -/
theorem load_stepper (n : ℕ) (solve : ℚ → BCSet n → Vec n → Option (Vec n))
    (st : LoopState n) :
    loadIndices.map tractionOf =
      [-1.5, -3, -4.5, -6, -7.5, -9, -10.5, -12, -13.5] ∧
    ((loadLoop solve loadIndices st).2).map LoopState.u =
      solveChain solve loadIndices st.bcSet st.u ∧
    (∀ uf, solveChain solve loadIndices st.bcSet st.u = some uf →
      (loadLoop solve loadIndices st).1 =
        [-1.5, -3, -4.5, -6, -7.5, -9, -10.5, -12, -13.5]) ∧
    (∀ pre k post u', loadIndices = pre ++ k :: post →
      solveChain solve pre st.bcSet st.u = some u' →
      solve (tractionOf k) st.bcSet u' = none →
      loadLoop solve loadIndices st =
        (pre.map tractionOf ++ [tractionOf k], none)) := by
  have hsched : loadIndices.map tractionOf =
      [-1.5, -3, -4.5, -6, -7.5, -9, -10.5, -12, -13.5] := by
    rw [loadIndices]
    norm_num [List.range', tractionOf, tval0]
  refine ⟨hsched, loadLoop_u solve loadIndices st, fun uf huf => ?_, ?_⟩
  · rw [loadLoop_steps solve loadIndices st uf huf, hsched]
  · intro pre k post u' hsplit hch hfail
    rw [hsplit]
    exact loadLoop_abort solve pre k post st u' hch hfail

/-- Witness for C5: a solver that diverges whenever the traction value is below
-2 makes the run abort at the second load step, having attempted exactly the
load values -1.5 and -3. -/
theorem load_stepper_witness :
    loadLoop (fun t _ u => if t < -2 then none else some u) loadIndices
      (⟨(0, 0, 0), fun _ => none, fun _ => 0⟩ : LoopState 1) =
      ([1].map tractionOf ++ [tractionOf 2], none) := by
  refine (load_stepper 1 (fun t _ u => if t < -2 then none else some u)
    ⟨(0, 0, 0), fun _ => none, fun _ => 0⟩).2.2.2 [1] 2 [3, 4, 5, 6, 7, 8, 9]
    (fun _ => 0) (by rw [loadIndices]; rfl) ?_ ?_
  · simp only [solveChain_cons, solveChain_nil]
    norm_num [tractionOf, tval0, Option.some_bind]
  · norm_num [tractionOf, tval0]

/-- C10: the prescribed Dirichlet value is zero on every constrained DOF; the
boundary-condition set carried by the load loop is never modified, so it is
invariant across all load steps; and a displacement whose assembled residual
vanishes on a constrained DOF vanishes there. -/
theorem dirichlet_zero_invariant (n : ℕ) (leftDofs : Fin n → Bool) :
    (∀ k g, bcs leftDofs k = some g → g = 0) ∧
    (∀ (solve : ℚ → BCSet n → Vec n → Option (Vec n)) ks (st stf : LoopState n),
      (loadLoop solve ks st).2 = some stf → stf.bcSet = st.bcSet) ∧
    (∀ (bIn raw : Vec n) (A : MatQ n) (x : Vec n) (k : Fin n),
      (bcs leftDofs k).isSome →
      residualAssemble bIn raw A (bcs leftDofs) x k = 0 → x k = 0) := by
  refine ⟨?_, fun solve ks st stf h => loadLoop_bc solve ks st stf h, ?_⟩
  · intro k g h
    rw [bcs] at h
    by_cases hk : leftDofs k
    · rw [if_pos hk, Option.some_inj] at h
      rw [← h, u_bc]
    · rw [if_neg hk] at h; exact absurd h (Option.noConfusion)
  · intro bIn raw A x k hsome hres
    have hbc : bcs leftDofs k = some 0 := by
      rw [bcs] at hsome ⊢
      by_cases hk : leftDofs k
      · rw [if_pos hk, u_bc]
      · rw [if_neg hk] at hsome; exact absurd hsome (by simp)
    rw [residualAssemble_constrained bIn raw A (bcs leftDofs) x k 0 hbc] at hres
    linarith

/-- Witness for C10 on a one-DOF system with the single DOF constrained: the
prescribed value is 0, an empty load run keeps the boundary-condition set, and
a zero-residual displacement vanishes at the constrained DOF. -/
theorem dirichlet_zero_invariant_witness :
    ((0 : ℚ) = 0) ∧
    ((⟨(0, 0, 0), bcs (fun _ : Fin 1 => true), fun _ => 0⟩ : LoopState 1).bcSet =
      (⟨(0, 0, 0), bcs (fun _ : Fin 1 => true), fun _ => 0⟩ : LoopState 1).bcSet) ∧
    ((fun _ : Fin 1 => (0 : ℚ)) 0 = 0) := by
  refine ⟨(dirichlet_zero_invariant 1 (fun _ => true)).1 0 0 rfl,
    (dirichlet_zero_invariant 1 (fun _ => true)).2.1 (fun _ _ u => some u) []
      ⟨(0, 0, 0), bcs (fun _ => true), fun _ => 0⟩
      ⟨(0, 0, 0), bcs (fun _ => true), fun _ => 0⟩ rfl,
    (dirichlet_zero_invariant 1 (fun _ => true)).2.2 (fun _ => 3) (fun _ => 5)
      (Matrix.of fun _ _ => 2) (fun _ => 0) 0 rfl ?_⟩
  rw [residualAssemble_constrained (fun _ => 3) (fun _ => 5) (Matrix.of fun _ _ => 2)
    (bcs (fun _ => true)) (fun _ => 0) 0 0 rfl]
  norm_num


/-! ### Constitutive model (compressible neo-Hookean) -/

lemma Ic_eq_sum (M : Mat3) : Ic M = ∑ j, ∑ i, M i j ^ 2 := by
  simp [Ic, CGreen, Matrix.trace, Matrix.diag, Matrix.mul_apply,
    Matrix.transpose_apply, sq]

lemma Ic_perturb (F : Mat3) (i j : Fin 3) (t : ℝ) :
    Ic (F + t • Matrix.stdBasisMatrix i j 1) = Ic F + 2 * t * F i j + t ^ 2 := by
  rw [Ic_eq_sum, Ic_eq_sum]
  have expand : ∀ a b : Fin 3,
      (F + t • Matrix.stdBasisMatrix i j 1 : Mat3) a b ^ 2 =
        F a b ^ 2 + (if i = a ∧ j = b then 2 * t * F a b + t ^ 2 else 0) := by
    intro a b
    rw [Matrix.add_apply, Matrix.smul_apply, Matrix.stdBasisMatrix, Matrix.of_apply]
    by_cases hab : i = a ∧ j = b
    · rw [if_pos hab, if_pos hab, smul_eq_mul]; ring
    · rw [if_neg hab, if_neg hab, smul_zero, add_zero, add_zero]
  simp_rw [expand, Finset.sum_add_distrib]
  have hsum : ∀ b : Fin 3,
      (∑ a : Fin 3, if i = a ∧ j = b then 2 * t * F a b + t ^ 2 else 0) =
        (if j = b then 2 * t * F i b + t ^ 2 else 0) := by
    intro b
    by_cases hb : j = b
    · simp [hb]
    · simp [hb]
  simp_rw [hsum, Finset.sum_ite_eq]
  simp
  ring

lemma stdBasis_perturb_eq_updateRow (F : Mat3) (i j : Fin 3) (t : ℝ) :
    F + t • Matrix.stdBasisMatrix i j 1 =
      F.updateRow i (F i + t • (Pi.single j 1 : Fin 3 → ℝ)) := by
  ext a b
  rw [Matrix.add_apply, Matrix.smul_apply, Matrix.stdBasisMatrix, Matrix.of_apply]
  by_cases ha : a = i
  · subst ha
    rw [Matrix.updateRow_self, Pi.add_apply, Pi.smul_apply]
    by_cases hb : j = b
    · subst hb; rw [if_pos ⟨rfl, rfl⟩, Pi.single_eq_same]
    · rw [if_neg (fun hh => hb hh.2), Pi.single_eq_of_ne (fun hh => hb hh.symm),
        smul_zero]
  · rw [Matrix.updateRow_ne ha, if_neg (fun hh => ha hh.1.symm), smul_zero, add_zero]

lemma det_perturb (F : Mat3) (i j : Fin 3) (t : ℝ) :
    (F + t • Matrix.stdBasisMatrix i j 1).det = F.det + t * F.adjugate j i := by
  rw [stdBasis_perturb_eq_updateRow, Matrix.det_updateRow_add,
    Matrix.updateRow_eq_self, Matrix.det_updateRow_smul,
    ← Matrix.adjugate_apply]

lemma psi_line_hasDerivAt (μ lam : ℝ) (F : Mat3) (h : 0 < F.det) (i j : Fin 3) :
    HasDerivAt (fun t : ℝ => psi μ lam (F + t • Matrix.stdBasisMatrix i j 1))
      (μ * F i j - μ * (F.adjugate j i / F.det)
        + lam * Real.log F.det * (F.adjugate j i / F.det)) 0 := by
  have hfun : (fun t : ℝ => psi μ lam (F + t • Matrix.stdBasisMatrix i j 1)) =
      fun t : ℝ => μ / 2 * (Ic F + 2 * t * F i j + t ^ 2 - 3)
        - μ * Real.log (F.det + t * F.adjugate j i)
        + lam / 2 * Real.log (F.det + t * F.adjugate j i) ^ 2 := by
    funext t
    rw [psi, Jdet, Ic_perturb, det_perturb]
  rw [hfun]
  have hlin : HasDerivAt (fun t : ℝ => F.det + t * F.adjugate j i)
      (F.adjugate j i) 0 := by
    simpa using ((hasDerivAt_id (0 : ℝ)).mul_const (F.adjugate j i)).const_add F.det
  have hval : F.det + (0 : ℝ) * F.adjugate j i = F.det := by ring
  have hne : F.det + (0 : ℝ) * F.adjugate j i ≠ 0 := by rw [hval]; exact ne_of_gt h
  have hlog : HasDerivAt (fun t : ℝ => Real.log (F.det + t * F.adjugate j i))
      ((F.det)⁻¹ * F.adjugate j i) 0 := by
    have h2 := (Real.hasDerivAt_log hne).comp 0 hlin
    simpa [Function.comp, hval] using h2
  have hq : HasDerivAt (fun t : ℝ => Ic F + 2 * t * F i j + t ^ 2 - 3)
      (2 * F i j) 0 := by
    have hfe : (fun t : ℝ => Ic F + 2 * t * F i j + t ^ 2 - 3) =
        fun t : ℝ => Ic F + 2 * F i j * t + t ^ 2 - 3 := by
      funext t; ring
    rw [hfe]
    have hb := (((hasDerivAt_id (0 : ℝ)).const_mul (2 * F i j)).const_add
      (Ic F)).add (hasDerivAt_pow 2 0)
    simpa using hb.sub_const 3
  have hA := hq.const_mul (μ / 2)
  have hB := hlog.const_mul μ
  have hC := (hlog.pow 2).const_mul (lam / 2)
  have htotal := (hA.sub hB).add hC
  convert htotal using 1
  rw [hval]
  field_simp
  ring

lemma invT_apply (F : Mat3) (i j : Fin 3) :
    F⁻¹ᵀ i j = F.adjugate j i / F.det := by
  rw [Matrix.transpose_apply, Matrix.inv_def, Matrix.smul_apply, smul_eq_mul,
    Ring.inverse_eq_inv, div_eq_inv_mul]

/-- C3: for every deformation gradient with `det F ≤ 0` the constitutive
evaluation signals the `GeometricDegeneracy` failure (`none`) and never
evaluates the logarithm on the non-positive determinant — `ln` is applied only
under the guard `J > 0` — while under that guard the evaluation succeeds and
returns the energy `psi`. -/
theorem geometric_degeneracy (μ lam : ℝ) (F : Mat3) :
    (psiE μ lam F = none ↔ Jdet F ≤ 0) ∧
    (0 < Jdet F → psiE μ lam F = some (psi μ lam F)) := by
  by_cases h : 0 < Jdet F
  · constructor
    · simp only [psiE, lnE, if_pos h, Option.some_bind]
      constructor
      · intro hc; exact absurd hc (Option.noConfusion)
      · intro hle; exact absurd h (not_lt.mpr hle)
    · intro _
      simp only [psiE, lnE, if_pos h, Option.some_bind, psi]
  · have hle : Jdet F ≤ 0 := le_of_not_lt h
    exact ⟨by simp [psiE, lnE, if_neg h, hle], fun hpos => absurd hpos h⟩

/-- Witness for C3: the zero matrix has determinant 0 and the evaluation fails;
the identity has determinant 1 and the evaluation returns the energy. -/
theorem geometric_degeneracy_witness :
    psiE 1 1 (0 : Mat3) = none ∧ psiE 1 1 (1 : Mat3) = some (psi 1 1 1) :=
  ⟨(geometric_degeneracy 1 1 0).1.mpr
      (by rw [Jdet, Matrix.det_zero ⟨0⟩]),
   (geometric_degeneracy 1 1 1).2
      (by rw [Jdet, Matrix.det_one]; norm_num)⟩

/-- C1: the strain energy density satisfies
`psi(F) = (mu/2)(Ic − 3) − mu·ln(J) + (lam/2)(ln J)²` with `Ic = tr(FᵀF)` and
`J = det F`; and for every `F` with `det F > 0`, the first Piola–Kirchhoff
stress — the entrywise derivative of `psi` with respect to `F` — equals the
closed form `mu (F − F⁻ᵀ) + lam·ln(J)·F⁻ᵀ`. -/
theorem stress_is_energy_derivative (μ lam : ℝ) (F : Mat3) (h : 0 < Jdet F) :
    psi μ lam F = μ / 2 * ((Fᵀ * F).trace - 3) - μ * Real.log F.det
        + lam / 2 * Real.log F.det ^ 2 ∧
    ∀ i j, HasDerivAt (fun t : ℝ => psi μ lam (F + t • Matrix.stdBasisMatrix i j 1))
      (P_spec μ lam F i j) 0 := by
  constructor
  · rfl
  · intro i j
    have hd := psi_line_hasDerivAt μ lam F h i j
    convert hd using 1
    rw [P_spec, Jdet, Matrix.add_apply, Matrix.smul_apply, Matrix.sub_apply,
      Matrix.smul_apply, invT_apply]
    simp only [smul_eq_mul]
    ring

/-- Witness for C1 at the identity deformation gradient for the off-diagonal
entry (0,1). -/
theorem stress_is_energy_derivative_witness :
    HasDerivAt (fun t : ℝ => psi 1 1 ((1 : Mat3) + t • Matrix.stdBasisMatrix 0 1 1))
      (P_spec 1 1 1 0 1) 0 :=
  (stress_is_energy_derivative 1 1 1 (by rw [Jdet, Matrix.det_one]; norm_num)).2 0 1

/-- C6: at the identity deformation gradient (`F = I`, zero displacement
gradient) the strain energy density and the first Piola–Kirchhoff stress both
vanish, for every choice of material parameters `mu > 0` and `lam > 0`; every
entrywise derivative of `psi` at the identity is zero. -/
theorem identity_zero_energy_and_stress (μ lam : ℝ) (hμ : 0 < μ) (hlam : 0 < lam) :
    psi μ lam 1 = 0 ∧ P_spec μ lam 1 = 0 ∧
    ∀ i j, HasDerivAt
      (fun t : ℝ => psi μ lam ((1 : Mat3) + t • Matrix.stdBasisMatrix i j 1)) 0 0 := by
  refine ⟨?_, ?_, ?_⟩
  · rw [psi, Jdet, Matrix.det_one, Real.log_one, Ic, CGreen, Matrix.transpose_one,
      Matrix.one_mul, Matrix.trace_one]
    norm_num [Fintype.card_fin]
  · rw [P_spec, Jdet, Matrix.det_one, Real.log_one, inv_one, Matrix.transpose_one,
      sub_self, smul_zero, mul_zero, zero_smul, add_zero]
  · intro i j
    have hd := psi_line_hasDerivAt μ lam 1 (by rw [Matrix.det_one]; norm_num) i j
    have hzero : μ * (1 : Mat3) i j - μ * ((1 : Mat3).adjugate j i / (1 : Mat3).det)
        + lam * Real.log (1 : Mat3).det * ((1 : Mat3).adjugate j i / (1 : Mat3).det)
        = 0 := by
      rw [Matrix.adjugate_one, Matrix.det_one, Real.log_one]
      by_cases hij : i = j
      · subst hij; simp
      · rw [Matrix.one_apply_ne hij, Matrix.one_apply_ne (Ne.symm hij)]
        norm_num
    exact hzero ▸ hd

/-- Witness for C6 at `mu = lam = 1`. -/
theorem identity_zero_energy_and_stress_witness :
    psi 1 1 1 = 0 ∧ P_spec 1 1 1 = 0 :=
  ⟨(identity_zero_energy_and_stress 1 1 one_pos one_pos).1,
   (identity_zero_energy_and_stress 1 1 one_pos one_pos).2.1⟩


/-! ### Newton solver -/

lemma newtonIterates_shift {n : ℕ} (step : (Fin n → ℝ) → Fin n → ℝ)
    (u0 : Fin n → ℝ) : ∀ k,
      newtonIterates step (u0 + step u0) k = newtonIterates step u0 (k + 1) := by
  intro k
  induction k with
  | zero => rfl
  | succ k ih =>
    show newtonIterates step (u0 + step u0) k + step (newtonIterates step (u0 + step u0) k)
      = newtonIterates step u0 (k + 1) + step (newtonIterates step u0 (k + 1))
    rw [ih]

lemma stepConverged_shift {n : ℕ} (o : NewtonOptions)
    (step : (Fin n → ℝ) → Fin n → ℝ) (u0 : Fin n → ℝ) (m : ℕ) :
    stepConverged o step (u0 + step u0) m ↔ stepConverged o step u0 (m + 1) := by
  rw [stepConverged, stepConverged, newtonIterates_shift, newtonIterates_shift]

lemma newtonSolve_true_iff {n : ℕ} (o : NewtonOptions)
    (step : (Fin n → ℝ) → Fin n → ℝ) :
    ∀ maxIt (u0 : Fin n → ℝ),
      (newtonSolve o step maxIt u0).2.2 = true ↔
        ∃ m, m < maxIt ∧ stepConverged o step u0 m := by
  intro maxIt
  induction maxIt with
  | zero =>
    intro u0
    simp [newtonSolve]
  | succ maxIt ih =>
    intro u0
    rw [newtonSolve]
    by_cases h0 : converged o (step u0) (u0 + step u0)
    · rw [if_pos h0]
      constructor
      · intro _
        exact ⟨0, Nat.succ_pos maxIt, h0⟩
      · intro _
        rfl
    · rw [if_neg h0]
      show (newtonSolve o step maxIt (u0 + step u0)).2.2 = true ↔ _
      rw [ih (u0 + step u0)]
      constructor
      · rintro ⟨m, hm, hc⟩
        exact ⟨m + 1, Nat.succ_lt_succ hm, (stepConverged_shift o step u0 m).mp hc⟩
      · rintro ⟨m, hm, hc⟩
        cases m with
        | zero => exact absurd hc h0
        | succ m =>
          exact ⟨m, Nat.lt_of_succ_lt_succ hm,
            (stepConverged_shift o step u0 m).mpr hc⟩

lemma newtonSolve_first {n : ℕ} (o : NewtonOptions)
    (step : (Fin n → ℝ) → Fin n → ℝ) :
    ∀ maxIt (u0 : Fin n → ℝ) m, m < maxIt →
      (∀ l, l < m → ¬stepConverged o step u0 l) → stepConverged o step u0 m →
      newtonSolve o step maxIt u0 = (m + 1, newtonIterates step u0 (m + 1), true) := by
  intro maxIt
  induction maxIt with
  | zero => intro u0 m hm; exact absurd hm (Nat.not_lt_zero m)
  | succ maxIt ih =>
    intro u0 m hm hmin hc
    rw [newtonSolve]
    cases m with
    | zero =>
      have hc' : converged o (step u0) (u0 + step u0) := hc
      rw [if_pos hc']
      rfl
    | succ m =>
      have h0 : ¬converged o (step u0) (u0 + step u0) := hmin 0 (Nat.succ_pos m)
      rw [if_neg h0]
      have hrec := ih (u0 + step u0) m (Nat.lt_of_succ_lt_succ hm)
        (fun l hl => by
          rw [stepConverged_shift]
          exact hmin (l + 1) (Nat.succ_lt_succ hl))
        ((stepConverged_shift o step u0 m).mpr hc)
      rw [hrec, newtonIterates_shift]

/-- C4: the Newton solver is configured with the incremental convergence
criterion and tolerances `atol = 1e-8`, `rtol = 1e-6`, and it stops reporting
convergence exactly when the incremental criterion `‖δ‖ < rtol·‖u‖ + atol`
holds: within the iteration budget the solver reports convergence iff some
iteration satisfies the criterion, and it stops at the first such iteration,
returning its count and iterate. -/
theorem newton_incremental_stop (n maxIt : ℕ) (step : (Fin n → ℝ) → Fin n → ℝ)
    (u0 : Fin n → ℝ) :
    solverOptions.atol = 1e-8 ∧ solverOptions.rtol = 1e-6 ∧
    solverOptions.convergence_criterion = "incremental" ∧
    (∀ δ u : Fin n → ℝ, converged solverOptions δ u ↔
      euclNorm δ < 1e-6 * euclNorm u + 1e-8) ∧
    ((newtonSolve solverOptions step maxIt u0).2.2 = true ↔
      ∃ m, m < maxIt ∧ stepConverged solverOptions step u0 m) ∧
    (∀ m, m < maxIt → (∀ l, l < m → ¬stepConverged solverOptions step u0 l) →
      stepConverged solverOptions step u0 m →
      newtonSolve solverOptions step maxIt u0 =
        (m + 1, newtonIterates step u0 (m + 1), true)) :=
  ⟨rfl, rfl, rfl, fun δ u => Iff.rfl,
   newtonSolve_true_iff solverOptions step maxIt u0,
   fun m hm hmin hc => newtonSolve_first solverOptions step maxIt u0 m hm hmin hc⟩

/-- Witness for C4: with a zero correction from a zero start the incremental
criterion holds at the first iteration (`0 < 1e-8`), and the solver stops there
reporting convergence. -/
theorem newton_incremental_stop_witness :
    newtonSolve solverOptions (fun _ _ => (0 : ℝ)) 1 (fun _ : Fin 1 => 0) =
      (1, newtonIterates (fun _ _ => (0 : ℝ)) (fun _ : Fin 1 => 0) 1, true) := by
  refine (newton_incremental_stop 1 1 (fun _ _ => (0 : ℝ)) (fun _ : Fin 1 => 0)).2.2.2.2.2
    0 Nat.one_pos (fun l hl => absurd hl (Nat.not_lt_zero l)) ?_
  rw [stepConverged, converged]
  show euclNorm (fun _ : Fin 1 => (0 : ℝ)) <
    solverOptions.rtol * euclNorm (newtonIterates (fun _ _ => (0 : ℝ))
      (fun _ : Fin 1 => 0) 1) + solverOptions.atol
  have h2 : newtonIterates (fun _ _ => (0 : ℝ)) (fun _ : Fin 1 => 0) 1 =
      (fun _ : Fin 1 => (0 : ℝ)) := by
    funext x
    show (0 : ℝ) + (0 : ℝ) = 0
    norm_num
  rw [h2]
  have h1 : euclNorm (fun _ : Fin 1 => (0 : ℝ)) = 0 := by simp [euclNorm]
  rw [h1]
  show (0 : ℝ) < 1e-6 * 0 + 1e-8
  norm_num

end Hyperelasticity
